import Mathlib

/-!
# Sandesh session framing: batch buffer, length state and reassembly

A shallow embedding of `library/cpp/sandesh_session.h`.

* `size_t` values are natural numbers below `size_t_mod = 2^64`; every
  `size_t` addition of the source is written with an explicit `% size_t_mod`.
* `uint8_t *` is a region of bytes addressed by a natural-number index from
  the pointer; `memcpy` to `p + off` rewrites the indices `off .. off+n-1`.
* `assert(c)` is modelled by `Option`: `none` is the aborted run.
* `std::string` is a list of characters.
-/

namespace Sandesh

/-! ## Machine types -/

/-- One byte, the C++ `uint8_t`. -/
abbrev uint8_t := Fin 256

/-- The modulus of 64-bit `size_t` arithmetic, `2^64`. -/
def size_t_mod : Nat := 18446744073709551616

/-- Conversion of a signed integer to `size_t`, as in `(size_t)-1`. -/
def to_size_t (i : Int) : Nat := (i % (size_t_mod : Int)).toNat

/-- A byte region reachable from a `uint8_t *`: the byte at each index. -/
abbrev BytePtr := Nat → uint8_t

/-- The region a byte string occupies, read through a pointer to its start
(indices past the end read as zero; the source never reads them). -/
def ptr_of (b : List uint8_t) : BytePtr := fun i => b.getD i 0

/-- The first `n` bytes behind a pointer. -/
def bytes_at (p : BytePtr) (n : Nat) : List uint8_t := (List.range n).map p

/-- The call `memcpy(dst + off, src, n)` for a copy whose source and
destination ranges are valid objects: indices `off ≤ i < off + n` of the
destination region receive `src[i - off]`, all other bytes are untouched.
The region carries no capacity; where a range is not a valid object the C++
copy is undefined and this function says nothing about the code, so the
theorems read the result only for copies inside the batch buffer. -/
def memcpy_at (dst : BytePtr) (off : Nat) (src : BytePtr) (n : Nat) : BytePtr :=
  fun i => if off ≤ i ∧ i < off + n then src (i - off) else dst i

/-! ## Framing literals (`#define`s of the header) -/

/-- The macro `sXML_SANDESH_OPEN_ATTR_LENGTH`. -/
def sXML_SANDESH_OPEN_ATTR_LENGTH : String := "<sandesh length=\""

/-- The macro `sXML_SANDESH_OPEN`. -/
def sXML_SANDESH_OPEN : String := "<sandesh length=\"0000000000\">"

/-- The macro `sXML_SANDESH_CLOSE`. -/
def sXML_SANDESH_CLOSE : String := "</sandesh>"

/-! ## SandeshWriter -/

/-- The payload of a `boost::shared_ptr<TMemoryBuffer>`: its bytes. -/
abbrev TMemoryBuffer := List uint8_t

/-- The constant `SandeshWriter::kDefaultSendSize`. -/
def kDefaultSendSize : Nat := 16384

/-- The data members of `SandeshWriter` that the inline routines touch.
`send_buf_` is the region behind the `uint8_t *send_buf_` pointer. -/
structure SandeshWriter where
  ready_to_send_ : Bool
  wait_msgq_ : List TMemoryBuffer
  send_buf_ : BytePtr
  send_buf_offset_ : Nat

/-- The accessor `SandeshWriter::send_buf_offset()`. -/
def send_buf_offset (w : SandeshWriter) : Nat := w.send_buf_offset_

/-- The accessor `SandeshWriter::send_buf()`. -/
def send_buf (w : SandeshWriter) : BytePtr := w.send_buf_

/-- The routine `SandeshWriter::set_send_buf(buf, len)`:
`assert(len && (len < kDefaultSendSize)); memcpy(send_buf(), buf, len);
send_buf_offset_ = len;`. -/
def set_send_buf (w : SandeshWriter) (buf : BytePtr) (len : Nat) : Option SandeshWriter :=
  if len ≠ 0 ∧ len < kDefaultSendSize then
    some { w with
      send_buf_ := memcpy_at (send_buf w) 0 buf len
      send_buf_offset_ := len }
  else none

/-- The routine `SandeshWriter::append_send_buf(buf, len)`:
`assert(len && ((len + send_buf_offset_) < kDefaultSendSize));
memcpy(send_buf() + send_buf_offset_, buf, len); send_buf_offset_ += len;`
with both `size_t` additions taken modulo `2^64`. -/
def append_send_buf (w : SandeshWriter) (buf : BytePtr) (len : Nat) : Option SandeshWriter :=
  if len ≠ 0 ∧ (len + w.send_buf_offset_) % size_t_mod < kDefaultSendSize then
    some { w with
      send_buf_ := memcpy_at (send_buf w) w.send_buf_offset_ buf len
      send_buf_offset_ := (w.send_buf_offset_ + len) % size_t_mod }
  else none

/-- The routine `SandeshWriter::reset_send_buf()`: `send_buf_offset_ = 0;`. -/
def reset_send_buf (w : SandeshWriter) : SandeshWriter :=
  { w with send_buf_offset_ := 0 }

/-- The routine `SandeshWriter::SendBuffer(sbuffer, more)`: its body is the single call
`SendInternal(sbuffer)`. `SendInternal` is only declared in the header, so it
is a parameter: any function of the writer state and the buffer, returning
the new state together with its effects. -/
def SendBuffer {ε : Type} (SendInternal : SandeshWriter → TMemoryBuffer → SandeshWriter × ε)
    (w : SandeshWriter) (sbuffer : TMemoryBuffer) (_more : Bool) : SandeshWriter × ε :=
  SendInternal w sbuffer

/-- A writer with an all-zero batch buffer and the given offset. -/
def writer_at (off : Nat) : SandeshWriter :=
  { ready_to_send_ := true, wait_msgq_ := [], send_buf_ := fun _ => 0, send_buf_offset_ := off }

/-- The batch buffer is filled by `set_send_buf` for the first byte string and
`append_send_buf` for each following one, as a sequence of calls. -/
def append_all (w : SandeshWriter) : List (List uint8_t) → Option SandeshWriter
  | [] => some w
  | b :: bs => (append_send_buf w (ptr_of b) b.length).bind (fun w1 => append_all w1 bs)

/-- The call sequence `set_send_buf(b1); append_send_buf(b2); ...`. -/
def set_then_append (w : SandeshWriter) (b1 : List uint8_t) (bs : List (List uint8_t)) :
    Option SandeshWriter :=
  (set_send_buf w (ptr_of b1) b1.length).bind (fun w1 => append_all w1 bs)

/-! ## Lock scopes of the inline accessors -/

/-- What an inline accessor of `SandeshWriter` does to the shared state, in
program order: a `tbb::mutex::scoped_lock lock(mutex_)` takes `mutex_` where
it is declared and gives it back when its scope ends, at the return. -/
inductive Access
  | lock_mutex
  | unlock_mutex
  | read_ready_to_send
  | read_wait_msgq
  deriving DecidableEq, Repr

/-- Conversion of a `size_t` to `int` (32-bit two's complement), as in the
return of `WaitMsgQSize`. -/
def to_int (n : Nat) : Int :=
  if n % 4294967296 < 2147483648 then (n % 4294967296 : Nat) else (n % 4294967296 : Nat) - 4294967296

/-- The routine `SandeshWriter::SendReady()`:
`tbb::mutex::scoped_lock lock(mutex_); return ready_to_send_;`
with the accesses it makes. -/
def SendReady (w : SandeshWriter) : Bool × List Access :=
  (w.ready_to_send_, [Access.lock_mutex, Access.read_ready_to_send, Access.unlock_mutex])

/-- The routine `SandeshWriter::WaitMsgQSize()`: `return wait_msgq_.size();`
with the accesses it makes. -/
def WaitMsgQSize (w : SandeshWriter) : Int × List Access :=
  (to_int w.wait_msgq_.length, [Access.read_wait_msgq])

/-- An access sequence keeps the lock discipline when every read happens
while `mutex_` is held, `mutex_` is taken only when free and is given back
only as the last step. `held` says whether `mutex_` is held on entry. -/
def lock_disciplined (held : Bool) : List Access → Bool
  | [] => !held
  | Access.lock_mutex :: t => !held && lock_disciplined true t
  | Access.unlock_mutex :: t => held && t.isEmpty
  | Access.read_ready_to_send :: t => held && lock_disciplined held t
  | Access.read_wait_msgq :: t => held && lock_disciplined held t

/-! ## SandeshReader -/

/-- The data members of `SandeshReader` used by reassembly. `buf_` is the
`std::string` of bytes not yet attributed to a complete message. -/
structure SandeshReader where
  buf_ : List Char
  offset_ : Nat
  msg_length_ : Nat
  deriving DecidableEq, Repr

/-- The routine `SandeshReader::MsgLengthKnown()`: `msg_length_ != (size_t)-1`. -/
def MsgLengthKnown (r : SandeshReader) : Bool := r.msg_length_ != to_size_t (-1)

/-- The accessor `SandeshReader::msg_length()`. -/
def msg_length (r : SandeshReader) : Nat := r.msg_length_

/-- The routine `SandeshReader::set_msg_length(length)`: `msg_length_ = length;`. -/
def set_msg_length (r : SandeshReader) (length : Nat) : SandeshReader :=
  { r with msg_length_ := length }

/-- The routine `SandeshReader::reset_msg_length()`: `set_msg_length(-1);`. -/
def reset_msg_length (r : SandeshReader) : SandeshReader :=
  set_msg_length r (to_size_t (-1))

/-- A fresh reader: `buf_` empty, `msg_length_` unknown. -/
def fresh_reader : SandeshReader :=
  reset_msg_length { buf_ := [], offset_ := 0, msg_length_ := 0 }

/-! ## Reassembly (bodies not in the header) -/

/-- Modelled from the spec: the "header size" of step 3, the number of
characters of the opening tag `sXML_SANDESH_OPEN` (29). -/
def header_size : Nat := sXML_SANDESH_OPEN.length

/-- Modelled from the spec: the "closing-tag size" of step 3, the number of
characters of `sXML_SANDESH_CLOSE` (10). -/
def close_size : Nat := sXML_SANDESH_CLOSE.length

/-- Modelled from the spec: the fixed character width of the length field,
what the opening tag holds between the literal and the final `">` (10). -/
def length_width : Nat := header_size - sXML_SANDESH_OPEN_ATTR_LENGTH.length - 2

/-- Modelled from the spec: the fixed-width, zero-padded decimal text of the
length field ("exactly 10 ASCII decimal digits, zero-padded"); the writer's
encoder is not in the header. `decimal_field w n` is the last `w` decimal
digits of `n`. -/
def decimal_field : Nat → Nat → List Char
  | 0, _ => []
  | w + 1, n => decimal_field w (n / 10) ++ [Nat.digitChar (n % 10)]

/-- Modelled from the spec: the envelope built by `SandeshWriter::SendMsg`
(body not in the header): the fixed-size header `sXML_SANDESH_OPEN` with the
payload length written into its constant-width slot, the payload, and the
closing tag. -/
def encode (payload : List Char) : List Char :=
  sXML_SANDESH_OPEN.data.take sXML_SANDESH_OPEN_ATTR_LENGTH.length
    ++ decimal_field length_width payload.length
    ++ sXML_SANDESH_OPEN.data.drop (sXML_SANDESH_OPEN_ATTR_LENGTH.length + length_width)
    ++ payload ++ sXML_SANDESH_CLOSE.data

/-- Modelled from the spec: the failure of the reader named in the error
handling design, a malformed or unparseable length field. -/
inductive ParseError
  | FramingError
  deriving DecidableEq, Repr

/-- Modelled from the spec: the value of one ASCII decimal digit of the length
field, missing with the body of `SandeshReader::ExtractMsgLength`. -/
def digit_value (c : Char) : Option Nat :=
  if c.isDigit then some (c.toNat - 48) else none

/-- Modelled from the spec: parsing of the decimal length field, missing with
the body of `SandeshReader::ExtractMsgLength`; a non-digit character makes the
field malformed (`none`). -/
def parse_decimal_acc (acc : Nat) : List Char → Option Nat
  | [] => some acc
  | c :: cs =>
    match digit_value c with
    | none => none
    | some d => parse_decimal_acc (acc * 10 + d) cs

/-- Modelled from the spec: the forward scan for a literal, missing with the
body of `SandeshReader::MatchString`: the first position at which `pat`
occurs in `s`. -/
def find_first (pat : List Char) : List Char → Option Nat
  | [] => if pat.isPrefixOf [] then some 0 else none
  | c :: cs => if pat.isPrefixOf (c :: cs) then some 0 else (find_first pat cs).map (· + 1)

/-- Modelled from the spec: `SandeshReader::SetBuf` (body not in the header),
step 1 of the algorithm: the new chunk is concatenated to the leftover. -/
def SetBuf (r : SandeshReader) (str : List Char) : SandeshReader :=
  { r with buf_ := r.buf_ ++ str }

/-- Modelled from the spec: `SandeshReader::ReplaceBuf` (body not in the
header), step 4: the leftover becomes the bytes past the consumed frame and
scanning restarts at its beginning. -/
def ReplaceBuf (r : SandeshReader) (str : List Char) : SandeshReader :=
  { r with buf_ := str, offset_ := 0 }

/-- Modelled from the spec: `SandeshReader::LeftOver` (body not in the
header): whether bytes remain that belong to no complete message. -/
def LeftOver (r : SandeshReader) : Bool := !r.buf_.isEmpty

/-- Modelled from the spec: `SandeshReader::MatchString` (body not in the
header), step 2: "scan forward from `scan_offset` for the literal"; the
position found is an index into `buf_`. -/
def MatchString (r : SandeshReader) (pat : List Char) : Option Nat :=
  (find_first pat (r.buf_.drop r.offset_)).map (· + r.offset_)

/-- Modelled from the spec: `SandeshReader::ExtractMsgLength` (body not in
the header), step 2: if the opening-tag literal is not found, or the header is
not yet fully present, the message is still incoming (`none`); otherwise the
ten characters after the literal are parsed, and a malformed field is a
`FramingError`. The result is the position of the frame and the declared
payload length. -/
def ExtractMsgLength (r : SandeshReader) : Except ParseError (Option (Nat × Nat)) :=
  match MatchString r sXML_SANDESH_OPEN_ATTR_LENGTH.data with
  | none => Except.ok none
  | some p =>
    if r.buf_.length < p + header_size then Except.ok none
    else
      match parse_decimal_acc 0
          ((r.buf_.drop (p + sXML_SANDESH_OPEN_ATTR_LENGTH.length)).take length_width) with
      | none => Except.error ParseError.FramingError
      | some n => Except.ok (some (p, n))

/-- Modelled from the spec: the test of step 3, "total framed size = header
size + payload length + closing-tag size": whether the buffer holds the whole
frame that starts at `offset_`. -/
def frame_present (r : SandeshReader) : Bool :=
  decide (r.offset_ + (header_size + msg_length r + close_size) ≤ r.buf_.length)

/-- Modelled from the spec: `SandeshReader::ExtractMsg` (body not in the
header), steps 2 and 3 on the buffer already extended by `SetBuf`: the header
is searched and parsed only while the length is not known; once it is known
only the frame size is tested. Returns the reader and whether a whole frame
is present. -/
def ExtractMsg (r : SandeshReader) : Except ParseError (SandeshReader × Bool) :=
  if MsgLengthKnown r then Except.ok (r, frame_present r)
  else
    match ExtractMsgLength r with
    | Except.error e => Except.error e
    | Except.ok none => Except.ok (r, false)
    | Except.ok (some (p, n)) =>
      Except.ok (set_msg_length { r with offset_ := p } n,
        frame_present (set_msg_length { r with offset_ := p } n))

/-- Modelled from the spec: what one `on_read` call leaves, the reader, the
payloads dispatched to the session callback in order, and the error surfaced,
if any (the callback and the error path are not in the header). -/
structure ReadResult where
  reader : SandeshReader
  dispatched : List (List Char)
  error : Option ParseError
  deriving DecidableEq, Repr

/-- Modelled from the spec: the loop of `SandeshReader::OnRead` (body not in
the header), steps 2 to 5: while a whole frame is present its payload is
sliced out and dispatched, the length becomes unknown and the buffer keeps
only the bytes past the frame. Every round that goes on removes at least
`header_size + close_size` bytes, so `buf_.length + 1` rounds always suffice
(`OnRead_loop_fuel`). -/
def OnRead_loop : Nat → SandeshReader → List (List Char) → ReadResult
  | 0, r, acc => { reader := r, dispatched := acc, error := none }
  | fuel + 1, r, acc =>
    match ExtractMsg r with
    | Except.error e => { reader := r, dispatched := acc, error := some e }
    | Except.ok (r1, false) => { reader := r1, dispatched := acc, error := none }
    | Except.ok (r1, true) =>
      OnRead_loop fuel
        (reset_msg_length (ReplaceBuf r1
          (r1.buf_.drop (r1.offset_ + (header_size + msg_length r1 + close_size)))))
        (acc ++ [(r1.buf_.drop (r1.offset_ + header_size)).take (msg_length r1)])

/-- Modelled from the spec: `SandeshReader::OnRead` (body not in the header):
the chunk is added to the leftover and complete messages are extracted until
none is left. -/
def OnRead (r : SandeshReader) (buffer : List Char) : ReadResult :=
  OnRead_loop ((SetBuf r buffer).buf_.length + 1) (SetBuf r buffer) []

/-- A sequence of `OnRead` calls, one per chunk in arrival order, with the
payloads dispatched over the whole sequence; it stops at the first error. -/
def feed (r : SandeshReader) : List (List Char) → ReadResult
  | [] => { reader := r, dispatched := [], error := none }
  | c :: cs =>
    match (OnRead r c).error with
    | some e =>
      { reader := (OnRead r c).reader, dispatched := (OnRead r c).dispatched, error := some e }
    | none =>
      { reader := (feed (OnRead r c).reader cs).reader
        dispatched := (OnRead r c).dispatched ++ (feed (OnRead r c).reader cs).dispatched
        error := (feed (OnRead r c).reader cs).error }

/-- The reader has received exactly the bytes `b` of a message whose payload
has `n` bytes and has dispatched nothing: the buffer is `b`, scanning starts
at 0, and the length is either still unknown or known to be `n` with the
whole header received. -/
def Receiving (n : Nat) (b : List Char) (r : SandeshReader) : Prop :=
  r.buf_ = b ∧ r.offset_ = 0
    ∧ (r.msg_length_ = to_size_t (-1) ∨ (r.msg_length_ = n ∧ 29 ≤ b.length))

/-! ## Theorems: framing literals -/

/-- C1: `sXML_SANDESH_OPEN` is `sXML_SANDESH_OPEN_ATTR_LENGTH` (the 17
characters `<sandesh length="`), then ten `'0'` characters, then `">`; it has
29 characters and the length slot is the ten characters from position 17 to
26; `sXML_SANDESH_CLOSE` is the 10-character literal `</sandesh>`. -/
theorem sXML_SANDESH_OPEN_layout :
    sXML_SANDESH_OPEN
        = sXML_SANDESH_OPEN_ATTR_LENGTH ++ String.mk (List.replicate 10 '0') ++ "\">"
      ∧ sXML_SANDESH_OPEN_ATTR_LENGTH = "<sandesh length=\""
      ∧ sXML_SANDESH_OPEN_ATTR_LENGTH.length = 17
      ∧ sXML_SANDESH_OPEN.length = 29
      ∧ (sXML_SANDESH_OPEN.data.drop 17).take 10 = List.replicate 10 '0'
      ∧ sXML_SANDESH_OPEN.data.drop 27 = ['"', '>']
      ∧ sXML_SANDESH_CLOSE = "</sandesh>"
      ∧ sXML_SANDESH_CLOSE.length = 10 := by
  refine ⟨by decide, rfl, by decide, by decide, by decide, by decide, rfl, by decide⟩

/-! ## Lemmas on the byte-region model -/

theorem memcpy_at_inside (dst src : BytePtr) (off n i : Nat) (h1 : off ≤ i) (h2 : i < off + n) :
    memcpy_at dst off src n i = src (i - off) := by
  simp [memcpy_at, h1, h2]

theorem memcpy_at_below (dst src : BytePtr) (off n i : Nat) (h : i < off) :
    memcpy_at dst off src n i = dst i := by
  have : ¬ (off ≤ i ∧ i < off + n) := by omega
  simp [memcpy_at, this]

theorem bytes_at_length (p : BytePtr) (n : Nat) : (bytes_at p n).length = n := by
  simp [bytes_at]

theorem bytes_at_congr (p q : BytePtr) (n : Nat) (h : ∀ i, i < n → p i = q i) :
    bytes_at p n = bytes_at q n := by
  unfold bytes_at
  apply List.map_congr_left
  intro i hi
  exact h i (List.mem_range.mp hi)

theorem bytes_at_ptr_of (b : List uint8_t) : bytes_at (ptr_of b) b.length = b := by
  apply List.ext_getElem
  · simp [bytes_at]
  · intro i h1 h2
    simp [bytes_at, ptr_of, List.getD_eq_getElem?_getD, List.getElem?_eq_getElem h2]

/-- When the `size_t` sum does not wrap, a passing assertion of
`append_send_buf` bounds the true sum. -/
theorem append_send_buf_in_bounds_of_no_wrap (w w1 : SandeshWriter) (buf : BytePtr) (len : Nat)
    (hnw : len + w.send_buf_offset_ < size_t_mod)
    (h : append_send_buf w buf len = some w1) :
    0 < len ∧ w.send_buf_offset_ + len < kDefaultSendSize
      ∧ w1.send_buf_offset_ = w.send_buf_offset_ + len
      ∧ w1.send_buf_ = memcpy_at w.send_buf_ w.send_buf_offset_ buf len := by
  unfold append_send_buf at h
  split at h
  · rename_i hc
    rw [Nat.mod_eq_of_lt hnw] at hc
    have hw : (w.send_buf_offset_ + len) % size_t_mod = w.send_buf_offset_ + len :=
      Nat.mod_eq_of_lt (by omega)
    simp only [Option.some.injEq] at h
    subst h
    exact ⟨by omega, by omega, hw, rfl⟩
  · simp at h

/-- In range, `append_send_buf` passes its assertion and yields exactly the
copied region and the advanced offset. -/
theorem append_send_buf_of_fits (w : SandeshWriter) (buf : BytePtr) (len : Nat)
    (h0 : len ≠ 0) (hfit : w.send_buf_offset_ + len < kDefaultSendSize) :
    append_send_buf w buf len = some { w with
      send_buf_ := memcpy_at w.send_buf_ w.send_buf_offset_ buf len
      send_buf_offset_ := w.send_buf_offset_ + len } := by
  have hk : kDefaultSendSize < size_t_mod := by decide
  have hm : (len + w.send_buf_offset_) % size_t_mod = len + w.send_buf_offset_ :=
    Nat.mod_eq_of_lt (by omega)
  have hm2 : (w.send_buf_offset_ + len) % size_t_mod = w.send_buf_offset_ + len :=
    Nat.mod_eq_of_lt (by omega)
  have hc : len ≠ 0 ∧ (len + w.send_buf_offset_) % size_t_mod < kDefaultSendSize := by
    rw [hm]; exact ⟨h0, by omega⟩
  rw [append_send_buf, if_pos hc, hm2]
  rfl

/-- A run of appends of non-empty byte strings that fit: every assertion
passes, the offset advances by the total length, bytes below the starting
offset are kept and the appended bytes are the concatenation. -/
theorem append_all_spec (bs : List (List uint8_t)) :
    ∀ w : SandeshWriter, (∀ b ∈ bs, b ≠ []) →
      w.send_buf_offset_ + bs.flatten.length < kDefaultSendSize →
      ∃ w1, append_all w bs = some w1
        ∧ w1.send_buf_offset_ = w.send_buf_offset_ + bs.flatten.length
        ∧ (∀ i, i < w.send_buf_offset_ → w1.send_buf_ i = w.send_buf_ i)
        ∧ (∀ i, i < bs.flatten.length →
            w1.send_buf_ (w.send_buf_offset_ + i) = bs.flatten.getD i 0) := by
  induction bs with
  | nil =>
    intro w _ _
    exact ⟨w, rfl, by simp, by simp, by simp⟩
  | cons b bs ih =>
    intro w hne hfit
    have hb : b ≠ [] := hne b (List.mem_cons_self _ _)
    have hblen : b.length ≠ 0 := by
      intro h0; exact hb (List.length_eq_zero.mp h0)
    simp only [List.flatten_cons, List.length_append] at hfit
    have hstep := append_send_buf_of_fits w (ptr_of b) b.length hblen (by omega)
    obtain ⟨w1, hrun, hoff, hlow, hnew⟩ := ih
      { w with
        send_buf_ := memcpy_at w.send_buf_ w.send_buf_offset_ (ptr_of b) b.length
        send_buf_offset_ := w.send_buf_offset_ + b.length }
      (fun c hc => hne c (List.mem_cons_of_mem _ hc))
      (by simp only; omega)
    simp only at hoff hlow hnew
    refine ⟨w1, ?_, ?_, ?_, ?_⟩
    · simp only [append_all, hstep, Option.some_bind]
      exact hrun
    · simp only [List.flatten_cons, List.length_append]; omega
    · intro i hi
      rw [hlow i (by omega)]
      exact memcpy_at_below _ _ _ _ _ hi
    · intro i hi
      simp only [List.flatten_cons, List.length_append] at hi
      simp only [List.flatten_cons]
      by_cases hib : i < b.length
      · rw [hlow _ (by omega), memcpy_at_inside _ _ _ _ _ (by omega) (by omega)]
        simp only [ptr_of, Nat.add_sub_cancel_left]
        simp [List.getD_eq_getElem?_getD, List.getElem?_append_left hib]
      · have hi2 : i - b.length < bs.flatten.length := by omega
        have := hnew (i - b.length) hi2
        have e : w.send_buf_offset_ + b.length + (i - b.length) = w.send_buf_offset_ + i := by
          omega
        rw [e] at this
        rw [this]
        simp [List.getD_eq_getElem?_getD, List.getElem?_append_right (Nat.le_of_not_lt hib)]

/-! ## Theorems: the batch buffer -/

/-- C3: `set_send_buf(buf, len)` passes its assertion exactly when
`0 < len < 16384`; so 16383 is accepted and 16384 and 0 are rejected. When it
passes, `send_buf_offset_` is `len` and the first `len` bytes of `send_buf_`
are the first `len` bytes of `buf`. -/
theorem set_send_buf_accepts_iff (w : SandeshWriter) (buf : BytePtr) (len : Nat) :
    ((set_send_buf w buf len).isSome = true ↔ 0 < len ∧ len < 16384)
      ∧ (∀ w1, set_send_buf w buf len = some w1 →
          w1.send_buf_offset_ = len ∧ bytes_at w1.send_buf_ len = bytes_at buf len)
      ∧ (set_send_buf w buf 16383).isSome = true
      ∧ set_send_buf w buf 16384 = none
      ∧ set_send_buf w buf 0 = none := by
  refine ⟨?_, ?_, ?_, ?_, ?_⟩
  · unfold set_send_buf kDefaultSendSize
    split
    · rename_i hc
      simp only [Option.isSome_some, true_iff]
      omega
    · rename_i hc
      simp only [Option.isSome_none, Bool.false_eq_true, false_iff]
      omega
  · intro w1 h
    unfold set_send_buf at h
    split at h
    · simp only [Option.some.injEq] at h
      subst h
      refine ⟨rfl, ?_⟩
      apply bytes_at_congr
      intro i hi
      simpa using memcpy_at_inside (send_buf w) buf 0 len i (Nat.zero_le _) (by omega)
    · simp at h
  · simp [set_send_buf, kDefaultSendSize]
  · simp [set_send_buf, kDefaultSendSize]
  · simp [set_send_buf]

/-- C3, at a concrete input: a 3-byte string is accepted, the offset becomes 3
and the first 3 bytes of the batch buffer are the string. -/
theorem set_send_buf_accepts_iff_witness :
    (set_send_buf (writer_at 7) (ptr_of [10, 20, 30]) 3).map
        (fun w1 => (w1.send_buf_offset_, bytes_at w1.send_buf_ 3))
      = some (3, [10, 20, 30]) := by
  obtain ⟨hiff, hpost, -, -, -⟩ :=
    set_send_buf_accepts_iff (writer_at 7) (ptr_of [10, 20, 30]) 3
  have hs : (set_send_buf (writer_at 7) (ptr_of [10, 20, 30]) 3).isSome = true :=
    hiff.mpr (by decide)
  obtain ⟨w1, hw1⟩ := Option.isSome_iff_exists.mp hs
  obtain ⟨ho, hb⟩ := hpost w1 hw1
  rw [hw1]
  simp only [Option.map_some', ho, hb]
  rfl

/-- C5: from a state with `send_buf_offset_ < kDefaultSendSize`,
`reset_send_buf` yields such a state, and so do `set_send_buf` and
`append_send_buf` for every input on which their assertion passes (the new
offset of `append_send_buf` is the `size_t` sum modulo `2^64`). -/
theorem send_buf_offset_invariant (w : SandeshWriter)
    (_h : w.send_buf_offset_ < kDefaultSendSize) :
    (reset_send_buf w).send_buf_offset_ < kDefaultSendSize
      ∧ (∀ buf len w1, set_send_buf w buf len = some w1 →
          w1.send_buf_offset_ < kDefaultSendSize)
      ∧ (∀ buf len w1, append_send_buf w buf len = some w1 →
          w1.send_buf_offset_ < kDefaultSendSize) := by
  refine ⟨by simp [reset_send_buf, kDefaultSendSize], ?_, ?_⟩
  · intro buf len w1 h
    unfold set_send_buf at h
    split at h
    · rename_i hc
      simp only [Option.some.injEq] at h
      subst h
      exact hc.2
    · simp at h
  · intro buf len w1 h
    unfold append_send_buf at h
    split at h
    · rename_i hc
      simp only [Option.some.injEq] at h
      subst h
      have := hc.2
      rw [Nat.add_comm] at this
      exact this
    · simp at h

/-- C5, at the writer with offset 5. -/
theorem send_buf_offset_invariant_witness :
    (writer_at 5).send_buf_offset_ < kDefaultSendSize
      ∧ (reset_send_buf (writer_at 5)).send_buf_offset_ < kDefaultSendSize
      ∧ (∀ buf len w1, set_send_buf (writer_at 5) buf len = some w1 →
          w1.send_buf_offset_ < kDefaultSendSize)
      ∧ (∀ buf len w1, append_send_buf (writer_at 5) buf len = some w1 →
          w1.send_buf_offset_ < kDefaultSendSize) :=
  ⟨by decide, send_buf_offset_invariant (writer_at 5) (by decide)⟩

/-- C6 as stated fails: the list `[1], []` of byte strings is non-empty and
its total length 1 is below 16384, yet `append_send_buf` of the empty string
fails its assertion (`len` is 0); so does `set_send_buf` of an empty first
string. -/
theorem set_then_append_rejects_empty :
    ([1] ++ List.flatten [([] : List uint8_t)]).length < kDefaultSendSize
      ∧ set_then_append (writer_at 0) [1] [[]] = none
      ∧ set_then_append (writer_at 0) [] [] = none := by
  refine ⟨by decide, ?_, ?_⟩
  · simp [set_then_append, set_send_buf, append_all, append_send_buf, kDefaultSendSize]
  · simp [set_then_append, set_send_buf]

/-- C6, amended: for byte strings `b1, b2, .., bk` that are all non-empty and
whose total length is below 16384, `set_send_buf(b1)` followed by
`append_send_buf(b2)`, .., `append_send_buf(bk)` passes every assertion and
ends with `send_buf_offset_` the total length and the first `send_buf_offset_`
bytes of `send_buf_` the concatenation `b1 ++ b2 ++ .. ++ bk`; and every
passing `append_send_buf` keeps the bytes below the previous offset. -/
theorem set_then_append_coalesces (w : SandeshWriter) (b1 : List uint8_t)
    (bs : List (List uint8_t)) (hne1 : b1 ≠ []) (hne : ∀ b ∈ bs, b ≠ [])
    (htot : (b1 ++ bs.flatten).length < kDefaultSendSize) :
    (∃ w1, set_then_append w b1 bs = some w1
        ∧ w1.send_buf_offset_ = (b1 ++ bs.flatten).length
        ∧ bytes_at w1.send_buf_ w1.send_buf_offset_ = b1 ++ bs.flatten)
      ∧ (∀ (v v1 : SandeshWriter) (buf : BytePtr) (len : Nat),
          append_send_buf v buf len = some v1 →
          ∀ i, i < v.send_buf_offset_ → v1.send_buf_ i = v.send_buf_ i) := by
  constructor
  · simp only [List.length_append] at htot
    have hlen : b1.length ≠ 0 := fun h0 => hne1 (List.length_eq_zero.mp h0)
    have hset : set_send_buf w (ptr_of b1) b1.length = some { w with
        send_buf_ := memcpy_at w.send_buf_ 0 (ptr_of b1) b1.length
        send_buf_offset_ := b1.length } := by
      have hc : b1.length ≠ 0 ∧ b1.length < kDefaultSendSize := ⟨hlen, by omega⟩
      rw [set_send_buf, if_pos hc]
      rfl
    obtain ⟨w1, hrun, hoff, hlow, hnew⟩ := append_all_spec bs
      { w with
        send_buf_ := memcpy_at w.send_buf_ 0 (ptr_of b1) b1.length
        send_buf_offset_ := b1.length } hne (by simp only; omega)
    simp only at hoff hlow hnew
    refine ⟨w1, ?_, ?_, ?_⟩
    · simp only [set_then_append, hset, Option.some_bind]
      exact hrun
    · simp only [List.length_append]; omega
    · rw [hoff]
      apply List.ext_getElem
      · simp [bytes_at]
      · intro i h1 h2
        simp only [bytes_at, List.length_map, List.length_range] at h1
        simp only [bytes_at, List.getElem_map, List.getElem_range]
        by_cases hib : i < b1.length
        · rw [hlow i hib, memcpy_at_inside _ _ _ _ _ (Nat.zero_le _) (by omega)]
          simp [ptr_of, List.getD_eq_getElem?_getD, List.getElem?_eq_getElem hib,
            List.getElem_append_left hib]
        · have hi2 : i - b1.length < bs.flatten.length := by omega
          have hn := hnew (i - b1.length) hi2
          have e : b1.length + (i - b1.length) = i := by omega
          rw [e] at hn
          rw [hn]
          simp [List.getD_eq_getElem?_getD, List.getElem?_eq_getElem hi2,
            List.getElem_append_right (Nat.le_of_not_lt hib)]
  · intro v v1 buf len h i hi
    unfold append_send_buf at h
    split at h
    · simp only [Option.some.injEq] at h
      subst h
      exact memcpy_at_below _ _ _ _ _ hi
    · simp at h

/-- C6 amended, at the byte strings `[1,2]`, `[3]`, `[4,5]`. -/
theorem set_then_append_coalesces_witness :
    ∃ w1, set_then_append (writer_at 9) [1, 2] [[3], [4, 5]] = some w1
      ∧ w1.send_buf_offset_ = 5
      ∧ bytes_at w1.send_buf_ w1.send_buf_offset_ = [1, 2, 3, 4, 5] :=
  (set_then_append_coalesces (writer_at 9) [1, 2] [[3], [4, 5]] (by decide) (by decide)
    (by decide)).1

/-- C9: `SendBuffer` does not look at `more`: with `more` true or false it
yields the same state and effects, those of `SendInternal(sbuffer)`. -/
theorem SendBuffer_ignores_more {ε : Type}
    (SendInternal : SandeshWriter → TMemoryBuffer → SandeshWriter × ε)
    (w : SandeshWriter) (sbuffer : TMemoryBuffer) :
    SendBuffer SendInternal w sbuffer true = SendBuffer SendInternal w sbuffer false
      ∧ SendBuffer SendInternal w sbuffer true = SendInternal w sbuffer
      ∧ SendBuffer SendInternal w sbuffer false = SendInternal w sbuffer :=
  ⟨rfl, rfl, rfl⟩

/-- C10: for a `size_t` length, `set_send_buf(buf, len)` is
`reset_send_buf()` followed by `append_send_buf(buf, len)`: the same runs
pass the assertion, with the same `send_buf_` and `send_buf_offset_`
afterwards, and `ready_to_send_` and `wait_msgq_` are those before the call. -/
theorem set_send_buf_eq_reset_append (w : SandeshWriter) (buf : BytePtr) (len : Nat)
    (hlen : len < size_t_mod) :
    set_send_buf w buf len = append_send_buf (reset_send_buf w) buf len
      ∧ ((set_send_buf w buf len).isSome = (append_send_buf (reset_send_buf w) buf len).isSome)
      ∧ (∀ w1, append_send_buf (reset_send_buf w) buf len = some w1 →
          w1.ready_to_send_ = w.ready_to_send_ ∧ w1.wait_msgq_ = w.wait_msgq_) := by
  have heq : set_send_buf w buf len = append_send_buf (reset_send_buf w) buf len := by
    simp only [set_send_buf, append_send_buf, reset_send_buf, send_buf, Nat.add_zero,
      Nat.zero_add, Nat.mod_eq_of_lt hlen]
  refine ⟨heq, by rw [heq], ?_⟩
  intro w1 h
  rw [← heq] at h
  unfold set_send_buf at h
  split at h
  · simp only [Option.some.injEq] at h
    subst h
    exact ⟨rfl, rfl⟩
  · simp at h

/-- C10, at a 2-byte string on a writer whose offset is 40. -/
theorem set_send_buf_eq_reset_append_witness :
    set_send_buf (writer_at 40) (ptr_of [8, 9]) 2
      = append_send_buf (reset_send_buf (writer_at 40)) (ptr_of [8, 9]) 2 :=
  (set_send_buf_eq_reset_append (writer_at 40) (ptr_of [8, 9]) 2 (by decide)).1

/-! ## Theorems: lock scopes -/

/-- C8: `SendReady` reads `ready_to_send_` with `mutex_` held from before the
read until it returns, but `WaitMsgQSize` reads `wait_msgq_` without taking
`mutex_` at all: its access sequence is the single unguarded read, so the
lock discipline does not hold for every accessor of the header. -/
theorem WaitMsgQSize_reads_unlocked (w : SandeshWriter) :
    lock_disciplined false (SendReady w).2 = true
      ∧ (WaitMsgQSize w).2 = [Access.read_wait_msgq]
      ∧ lock_disciplined false (WaitMsgQSize w).2 = false
      ∧ (SendReady w).1 = w.ready_to_send_ := by
  refine ⟨rfl, rfl, rfl, rfl⟩

/-! ## Theorems: the known-length state -/

theorem to_size_t_neg_one : to_size_t (-1) = 18446744073709551615 := by decide

/-- C7: after `reset_msg_length()`, `MsgLengthKnown()` is false; for every
length `n ≤ 9999999999` (what ten decimal digits express), after
`set_msg_length(n)`, `MsgLengthKnown()` is true and `msg_length()` is `n`; and
`reset_msg_length()` after `set_msg_length(n)` makes `MsgLengthKnown()` false
again. -/
theorem msg_length_known_state (r : SandeshReader) (n : Nat) (hn : n ≤ 9999999999) :
    MsgLengthKnown (reset_msg_length r) = false
      ∧ MsgLengthKnown (set_msg_length r n) = true
      ∧ msg_length (set_msg_length r n) = n
      ∧ MsgLengthKnown (reset_msg_length (set_msg_length r n)) = false := by
  refine ⟨?_, ?_, rfl, ?_⟩
  · simp [MsgLengthKnown, reset_msg_length, set_msg_length]
  · simp only [MsgLengthKnown, set_msg_length, to_size_t_neg_one, bne_iff_ne, ne_eq]
    omega
  · simp [MsgLengthKnown, reset_msg_length, set_msg_length]

/-- C7, at the declared length 5 on a fresh reader. -/
theorem msg_length_known_state_witness :
    MsgLengthKnown (reset_msg_length fresh_reader) = false
      ∧ MsgLengthKnown (set_msg_length fresh_reader 5) = true
      ∧ msg_length (set_msg_length fresh_reader 5) = 5
      ∧ MsgLengthKnown (reset_msg_length (set_msg_length fresh_reader 5)) = false :=
  msg_length_known_state fresh_reader 5 (by decide)

/-! ## Lemmas: the envelope -/

theorem open_attr_length_size : sXML_SANDESH_OPEN_ATTR_LENGTH.data.length = 17 := by decide

theorem header_size_eq : header_size = 29 := by decide

theorem close_size_eq : close_size = 10 := by decide

theorem length_width_eq : length_width = 10 := by decide

theorem decimal_field_length (w n : Nat) : (decimal_field w n).length = w := by
  induction w generalizing n with
  | zero => rfl
  | succ w ih => simp [decimal_field, ih]

/-- The encoded message, split into its five parts. -/
theorem encode_eq (payload : List Char) :
    encode payload = sXML_SANDESH_OPEN_ATTR_LENGTH.data
      ++ (decimal_field 10 payload.length
        ++ (['"', '>'] ++ (payload ++ sXML_SANDESH_CLOSE.data))) := by
  have h1 : sXML_SANDESH_OPEN.data.take sXML_SANDESH_OPEN_ATTR_LENGTH.length
      = sXML_SANDESH_OPEN_ATTR_LENGTH.data := by decide
  have h2 : sXML_SANDESH_OPEN.data.drop (sXML_SANDESH_OPEN_ATTR_LENGTH.length + length_width)
      = ['"', '>'] := by decide
  unfold encode
  rw [h1, h2, length_width_eq]
  simp only [List.append_assoc]

theorem encode_length (payload : List Char) :
    (encode payload).length = 39 + payload.length := by
  have hc : sXML_SANDESH_CLOSE.data.length = 10 := by decide
  rw [encode_eq]
  simp only [List.length_append, decimal_field_length, open_attr_length_size, hc,
    List.length_cons, List.length_nil]
  omega

theorem digit_value_digitChar : ∀ d, d < 10 → digit_value (Nat.digitChar d) = some d := by
  decide

theorem parse_decimal_acc_append (xs ys : List Char) :
    ∀ acc, parse_decimal_acc acc (xs ++ ys)
      = (parse_decimal_acc acc xs).bind (fun v => parse_decimal_acc v ys) := by
  induction xs with
  | nil => intro acc; rfl
  | cons c cs ih =>
    intro acc
    simp only [List.cons_append, parse_decimal_acc]
    cases digit_value c with
    | none => rfl
    | some d => exact ih _

/-- Parsing the `w`-digit field of `n` gives back `n` modulo `10^w`. -/
theorem parse_decimal_field (w : Nat) :
    ∀ n, parse_decimal_acc 0 (decimal_field w n) = some (n % 10 ^ w) := by
  induction w with
  | zero => intro n; simp [decimal_field, parse_decimal_acc, Nat.mod_one]
  | succ w ih =>
    intro n
    rw [decimal_field, parse_decimal_acc_append, ih]
    simp only [Option.some_bind, parse_decimal_acc,
      digit_value_digitChar (n % 10) (Nat.mod_lt _ (by decide))]
    congr 1
    rw [pow_succ', Nat.mod_mul]
    omega

theorem parse_length_field (n : Nat) (hn : n ≤ 9999999999) :
    parse_decimal_acc 0 (decimal_field 10 n) = some n := by
  rw [parse_decimal_field]
  congr 1
  exact Nat.mod_eq_of_lt (by omega)

theorem find_first_at_start (pat s : List Char) (h : pat <+: s) :
    find_first pat s = some 0 := by
  have hb : pat.isPrefixOf s = true := List.isPrefixOf_iff_prefix.mpr h
  cases s with
  | nil => simp [find_first, hb]
  | cons c cs => simp [find_first, hb]

theorem find_first_of_short (pat : List Char) :
    ∀ s : List Char, s.length < pat.length → find_first pat s = none := by
  intro s
  induction s with
  | nil =>
    intro h
    have hb : ¬ pat.isPrefixOf [] = true := by
      intro hp
      have := (List.isPrefixOf_iff_prefix.mp hp).length_le
      omega
    simp [find_first, hb]
  | cons c cs ih =>
    intro h
    have hb : ¬ pat.isPrefixOf (c :: cs) = true := by
      intro hp
      have := (List.isPrefixOf_iff_prefix.mp hp).length_le
      omega
    have hcs : find_first pat cs = none := ih (by simp only [List.length_cons] at h; omega)
    simp [find_first, hb, hcs]

/-! ## Lemmas: one message arriving in pieces -/

theorem open_attr_of_received (payload b rest : List Char)
    (hb : b ++ rest = encode payload) (h17 : 17 ≤ b.length) :
    sXML_SANDESH_OPEN_ATTR_LENGTH.data <+: b := by
  have h1 : sXML_SANDESH_OPEN_ATTR_LENGTH.data <+: encode payload := by
    rw [encode_eq]; exact List.prefix_append _ _
  have h2 : b <+: encode payload := ⟨rest, hb⟩
  exact List.prefix_of_prefix_length_le h1 h2 (by rw [open_attr_length_size]; exact h17)

theorem length_field_of_received (payload b rest : List Char)
    (hb : b ++ rest = encode payload) (h27 : 27 ≤ b.length) :
    (b.drop 17).take 10 = decimal_field 10 payload.length := by
  have h1 : ((b ++ rest).drop 17).take 10 = (b.drop 17).take 10 := by
    rw [List.drop_append_of_le_length (by omega),
      List.take_append_of_le_length (by rw [List.length_drop]; omega)]
  rw [← h1, hb, encode_eq, List.drop_left' open_attr_length_size,
    List.take_left' (decimal_field_length 10 _)]

theorem payload_of_encode (payload : List Char) :
    ((encode payload).drop 29).take payload.length = payload
      ∧ (encode payload).drop (39 + payload.length) = [] := by
  constructor
  · have hl : (sXML_SANDESH_OPEN_ATTR_LENGTH.data
        ++ (decimal_field 10 payload.length ++ ['"', '>'])).length = 29 := by
      simp only [List.length_append, open_attr_length_size, decimal_field_length,
        List.length_cons, List.length_nil]
    have e : encode payload = (sXML_SANDESH_OPEN_ATTR_LENGTH.data
        ++ (decimal_field 10 payload.length ++ ['"', '>']))
        ++ (payload ++ sXML_SANDESH_CLOSE.data) := by
      rw [encode_eq]; simp only [List.append_assoc]
    rw [e, List.drop_left' hl, List.take_left' rfl]
  · apply List.drop_eq_nil_of_le
    rw [encode_length]

theorem MatchString_at_zero (b pat : List Char) (m : Nat) :
    MatchString { buf_ := b, offset_ := 0, msg_length_ := m } pat = find_first pat b := by
  simp [MatchString]

theorem ExtractMsgLength_header_incomplete (payload b rest : List Char) (m : Nat)
    (hb : b ++ rest = encode payload) (h29 : b.length < 29) :
    ExtractMsgLength { buf_ := b, offset_ := 0, msg_length_ := m } = Except.ok none := by
  unfold ExtractMsgLength
  rw [MatchString_at_zero]
  by_cases h17 : 17 ≤ b.length
  · rw [find_first_at_start _ _ (open_attr_of_received payload b rest hb h17)]
    simp only [header_size_eq, Nat.zero_add, h29, if_true]
  · rw [find_first_of_short _ _ (by rw [open_attr_length_size]; omega)]

theorem ExtractMsgLength_header_complete (payload b rest : List Char) (m : Nat)
    (hn : payload.length ≤ 9999999999)
    (hb : b ++ rest = encode payload) (h29 : 29 ≤ b.length) :
    ExtractMsgLength { buf_ := b, offset_ := 0, msg_length_ := m }
      = Except.ok (some (0, payload.length)) := by
  have hs : sXML_SANDESH_OPEN_ATTR_LENGTH.length = 17 := by decide
  have hlt : ¬ b.length < 29 := by omega
  unfold ExtractMsgLength
  rw [MatchString_at_zero,
    find_first_at_start _ _ (open_attr_of_received payload b rest hb (by omega))]
  simp only [header_size_eq, Nat.zero_add, hlt, if_false, hs, length_width_eq]
  rw [length_field_of_received payload b rest hb (by omega), parse_length_field _ hn]

/-- One `ExtractMsg` while the bytes `b` of a message are in the buffer: a
whole frame is reported exactly when all `39 + n` bytes are there, and the
reader stays in a `Receiving` state, with the length known once the frame is
whole. -/
theorem ExtractMsg_on_received (payload b rest : List Char) (r : SandeshReader)
    (hn : payload.length ≤ 9999999999) (hb : b ++ rest = encode payload)
    (hr : Receiving payload.length b r) :
    ∃ r1, ExtractMsg r = Except.ok (r1, decide (39 + payload.length ≤ b.length))
      ∧ Receiving payload.length b r1
      ∧ (39 + payload.length ≤ b.length →
          r1 = { buf_ := b, offset_ := 0, msg_length_ := payload.length }) := by
  obtain ⟨buf, off, m⟩ := r
  obtain ⟨hbuf, hoff, hm⟩ := hr
  simp only at hbuf hoff hm
  subst hbuf hoff
  have hfp : ∀ k, frame_present { buf_ := buf, offset_ := 0, msg_length_ := k }
      = decide (39 + k ≤ buf.length) := by
    intro k
    simp only [frame_present, msg_length, header_size_eq, close_size_eq, decide_eq_decide]
    omega
  have hknown : MsgLengthKnown { buf_ := buf, offset_ := 0, msg_length_ := payload.length }
      = true := by
    simp only [MsgLengthKnown, to_size_t_neg_one, bne_iff_ne, ne_eq]
    omega
  rcases hm with hm | ⟨hm, h29⟩
  · subst hm
    have hunk : MsgLengthKnown { buf_ := buf, offset_ := 0, msg_length_ := to_size_t (-1) }
        = false := by
      simp [MsgLengthKnown]
    by_cases h29 : 29 ≤ buf.length
    · refine ⟨{ buf_ := buf, offset_ := 0, msg_length_ := payload.length }, ?_,
        ⟨rfl, rfl, Or.inr ⟨rfl, h29⟩⟩, fun _ => rfl⟩
      unfold ExtractMsg
      rw [hunk, ExtractMsgLength_header_complete payload buf rest _ hn hb h29]
      simp only [Bool.false_eq_true, if_false, set_msg_length, hfp]
    · have hshort : ¬ (39 + payload.length ≤ buf.length) := by omega
      refine ⟨{ buf_ := buf, offset_ := 0, msg_length_ := to_size_t (-1) }, ?_,
        ⟨rfl, rfl, Or.inl rfl⟩, fun h => absurd h hshort⟩
      unfold ExtractMsg
      rw [hunk, ExtractMsgLength_header_incomplete payload buf rest _ hb (by omega)]
      simp only [Bool.false_eq_true, if_false, hshort, decide_False]
  · subst hm
    refine ⟨{ buf_ := buf, offset_ := 0, msg_length_ := payload.length }, ?_,
      ⟨rfl, rfl, Or.inr ⟨rfl, h29⟩⟩, fun _ => rfl⟩
    unfold ExtractMsg
    rw [hknown, hfp]
    simp only [if_true]

theorem ExtractMsg_fresh :
    ExtractMsg fresh_reader = Except.ok (fresh_reader, false) := rfl

theorem OnRead_loop_incomplete (fuel : Nat) (r r1 : SandeshReader) (acc : List (List Char))
    (h : ExtractMsg r = Except.ok (r1, false)) :
    OnRead_loop (fuel + 1) r acc = { reader := r1, dispatched := acc, error := none } := by
  simp only [OnRead_loop, h]

theorem OnRead_loop_complete (fuel : Nat) (r r1 : SandeshReader) (acc : List (List Char))
    (h : ExtractMsg r = Except.ok (r1, true)) :
    OnRead_loop (fuel + 1) r acc
      = OnRead_loop fuel
          (reset_msg_length (ReplaceBuf r1
            (r1.buf_.drop (r1.offset_ + (header_size + msg_length r1 + close_size)))))
          (acc ++ [(r1.buf_.drop (r1.offset_ + header_size)).take (msg_length r1)]) := by
  simp only [OnRead_loop, h]

theorem OnRead_loop_failed (fuel : Nat) (r : SandeshReader) (acc : List (List Char))
    (e : ParseError) (h : ExtractMsg r = Except.error e) :
    OnRead_loop (fuel + 1) r acc = { reader := r, dispatched := acc, error := some e } := by
  simp only [OnRead_loop, h]

/-- A whole frame reported by `ExtractMsg` lies inside the unchanged buffer. -/
theorem ExtractMsg_frame (r r1 : SandeshReader) (h : ExtractMsg r = Except.ok (r1, true)) :
    r1.buf_ = r.buf_
      ∧ r1.offset_ + (header_size + msg_length r1 + close_size) ≤ r1.buf_.length := by
  unfold ExtractMsg at h
  split at h
  · simp only [Except.ok.injEq, Prod.mk.injEq] at h
    obtain ⟨h1, h2⟩ := h
    subst h1
    exact ⟨rfl, by simpa [frame_present] using h2⟩
  · split at h
    · simp at h
    · simp at h
    · simp only [Except.ok.injEq, Prod.mk.injEq] at h
      obtain ⟨h1, h2⟩ := h
      subst h1
      exact ⟨rfl, by simpa [frame_present] using h2⟩

/-- The round bound of `OnRead` is enough: any two bounds above the buffer
length give the same result, so the loop never stops for lack of rounds. -/
theorem OnRead_loop_fuel : ∀ (fuel1 fuel2 : Nat) (r : SandeshReader) (acc : List (List Char)),
    r.buf_.length < fuel1 → r.buf_.length < fuel2 →
    OnRead_loop fuel1 r acc = OnRead_loop fuel2 r acc := by
  intro fuel1
  induction fuel1 with
  | zero => intro fuel2 r acc h1; omega
  | succ k ih =>
    intro fuel2 r acc h1 h2
    cases fuel2 with
    | zero => omega
    | succ k2 =>
      cases h : ExtractMsg r with
      | error e => rw [OnRead_loop_failed _ _ _ _ h, OnRead_loop_failed _ _ _ _ h]
      | ok res =>
        obtain ⟨r1, fl⟩ := res
        cases fl with
        | false => rw [OnRead_loop_incomplete _ _ _ _ h, OnRead_loop_incomplete _ _ _ _ h]
        | true =>
          obtain ⟨hbuf, hfr⟩ := ExtractMsg_frame r r1 h
          rw [OnRead_loop_complete _ _ _ _ h, OnRead_loop_complete _ _ _ _ h]
          have hh := header_size_eq
          apply ih
          · simp only [reset_msg_length, set_msg_length, ReplaceBuf, List.length_drop]
            rw [hbuf] at hfr ⊢
            omega
          · simp only [reset_msg_length, set_msg_length, ReplaceBuf, List.length_drop]
            rw [hbuf] at hfr ⊢
            omega

theorem SetBuf_receiving (n : Nat) (pre chunk : List Char) (r : SandeshReader)
    (hr : Receiving n pre r) : Receiving n (pre ++ chunk) (SetBuf r chunk) := by
  obtain ⟨h1, h2, h3⟩ := hr
  refine ⟨by simp [SetBuf, h1], by simp [SetBuf, h2], ?_⟩
  rcases h3 with h3 | ⟨h3, h4⟩
  · exact Or.inl (by simp [SetBuf, h3])
  · exact Or.inr ⟨by simp [SetBuf, h3], by rw [List.length_append]; omega⟩

/-- An `OnRead` that does not yet complete the message dispatches nothing and
keeps all received bytes. -/
theorem OnRead_partial (payload pre chunk rest : List Char) (r : SandeshReader)
    (hn : payload.length ≤ 9999999999) (hsplit : pre ++ chunk ++ rest = encode payload)
    (hrest : rest ≠ []) (hr : Receiving payload.length pre r) :
    ∃ r1, OnRead r chunk = { reader := r1, dispatched := [], error := none }
      ∧ Receiving payload.length (pre ++ chunk) r1 := by
  obtain ⟨r1, hx, hr1, -⟩ := ExtractMsg_on_received payload (pre ++ chunk) rest
    (SetBuf r chunk) hn hsplit (SetBuf_receiving _ _ _ _ hr)
  have hlen := congrArg List.length hsplit
  rw [encode_length, List.length_append] at hlen
  have hpos : 0 < rest.length := List.length_pos.mpr hrest
  have hshort : ¬ (39 + payload.length ≤ (pre ++ chunk).length) := by omega
  rw [decide_eq_false hshort] at hx
  exact ⟨r1, OnRead_loop_incomplete _ _ _ _ hx, hr1⟩

/-- The `OnRead` that brings the last byte of the message dispatches the
payload once and leaves the fresh reader. -/
theorem OnRead_final (payload pre chunk : List Char) (r : SandeshReader)
    (hn : payload.length ≤ 9999999999) (hsplit : pre ++ chunk = encode payload)
    (hr : Receiving payload.length pre r) :
    OnRead r chunk = { reader := fresh_reader, dispatched := [payload], error := none } := by
  obtain ⟨r1, hx, -, hr1⟩ := ExtractMsg_on_received payload (pre ++ chunk) []
    (SetBuf r chunk) hn (by rw [List.append_nil]; exact hsplit) (SetBuf_receiving _ _ _ _ hr)
  have hlen : (pre ++ chunk).length = 39 + payload.length := by rw [hsplit, encode_length]
  have hfull : 39 + payload.length ≤ (pre ++ chunk).length := by omega
  rw [decide_eq_true hfull] at hx
  have hr1 := hr1 hfull
  subst hr1
  have hbuf : (SetBuf r chunk).buf_.length = (38 + payload.length) + 1 := by
    rw [(SetBuf_receiving _ _ chunk _ hr).1, hlen]; omega
  obtain ⟨hp1, hp2⟩ := payload_of_encode payload
  unfold OnRead
  rw [hbuf, OnRead_loop_complete _ _ _ _ hx]
  simp only [msg_length, header_size_eq, close_size_eq, Nat.zero_add, hsplit, List.nil_append]
  have e : 29 + payload.length + 10 = 39 + payload.length := by omega
  rw [e, hp1, hp2]
  exact OnRead_loop_incomplete _ _ _ _ ExtractMsg_fresh

/-- Feeding the rest of a message, chunk by chunk, to a reader that holds its
beginning dispatches the payload once and leaves the fresh reader. -/
theorem feed_received (payload : List Char) (hn : payload.length ≤ 9999999999) :
    ∀ (chunks : List (List Char)) (pre : List Char) (r : SandeshReader),
      chunks ≠ [] → (∀ c ∈ chunks, c ≠ []) → pre ++ chunks.flatten = encode payload →
      Receiving payload.length pre r →
      feed r chunks = { reader := fresh_reader, dispatched := [payload], error := none } := by
  intro chunks
  induction chunks with
  | nil => intro pre r h; exact absurd rfl h
  | cons c cs ih =>
    intro pre r _ hne hsplit hr
    cases cs with
    | nil =>
      simp only [List.flatten_cons, List.flatten_nil, List.append_nil] at hsplit
      have h := OnRead_final payload pre c r hn hsplit hr
      simp only [feed, h, List.append_nil]
    | cons c2 cs2 =>
      have hrest : (c2 :: cs2).flatten ≠ [] := by
        have hc2 : c2 ≠ [] := hne c2 (by simp)
        simp only [List.flatten_cons, ne_eq, List.append_eq_nil, not_and]
        intro h; exact absurd h hc2
      obtain ⟨r1, h, hr1⟩ := OnRead_partial payload pre c (c2 :: cs2).flatten r hn
        (by rw [List.append_assoc]; simpa using hsplit) hrest hr
      have hnext := ih (pre ++ c) r1 (by simp)
        (fun x hx => hne x (List.mem_cons_of_mem _ hx))
        (by rw [List.append_assoc]; simpa using hsplit) hr1
      rw [feed]
      simp only [h, hnext, List.nil_append]

/-! ## Theorems: reassembly -/

/-- C2: for every payload whose length fits the ten-digit field, and every
split of the encoded message into non-empty chunks, feeding the chunks in
order to `OnRead` from a fresh reader gives the same result as one `OnRead`
of the whole message: the payload is dispatched exactly once, no error is
raised, and the reader is left with an empty buffer and the length unknown. -/
theorem OnRead_fragmentation (payload : List Char) (chunks : List (List Char))
    (hn : payload.length ≤ 9999999999) (hne : ∀ c ∈ chunks, c ≠ [])
    (hsplit : chunks.flatten = encode payload) :
    feed fresh_reader chunks = OnRead fresh_reader (encode payload)
      ∧ OnRead fresh_reader (encode payload)
          = { reader := fresh_reader, dispatched := [payload], error := none }
      ∧ fresh_reader.buf_ = [] ∧ MsgLengthKnown fresh_reader = false := by
  have hfresh : Receiving payload.length [] fresh_reader := ⟨rfl, rfl, Or.inl rfl⟩
  have hone := OnRead_final payload [] (encode payload) fresh_reader hn rfl hfresh
  have hchunks : chunks ≠ [] := by
    intro h
    rw [h, List.flatten_nil] at hsplit
    have := congrArg List.length hsplit
    rw [encode_length, List.length_nil] at this
    omega
  have hfeed := feed_received payload hn chunks [] fresh_reader hchunks hne
    (by simpa using hsplit) hfresh
  exact ⟨by rw [hfeed, hone], hone, rfl, rfl⟩

/-- C2, at the payload `hello` with the length field split across two reads. -/
theorem OnRead_fragmentation_witness :
    feed fresh_reader ["<sandesh length=\"000000".data, "0005\">hello</sandesh>".data]
        = OnRead fresh_reader (encode "hello".data)
      ∧ OnRead fresh_reader (encode "hello".data)
          = { reader := fresh_reader, dispatched := ["hello".data], error := none } :=
  have h := OnRead_fragmentation "hello".data
    ["<sandesh length=\"000000".data, "0005\">hello</sandesh>".data]
    (by decide) (by decide) (by decide)
  ⟨h.1, h.2.1⟩

end Sandesh
